import Mathlib

/-!
Shallow embedding of the LDIF-to-CSV converter (LDIFtoCSV.py) and proofs
about its two-pass algorithm.

The entry stream produced by the external LDIF parsing library is modelled
as a list of entries; each entry carries the distinguished name and the
attribute dictionary (an insertion-ordered association list, mirroring a
Python dict, whose keys never include the name of the distinguished-name
line itself).  The output sink is modelled as the list of strings handed to
its write method, in order.
-/

/-- One record from the entry stream: the distinguished name together with
the attribute dictionary mapping each attribute name to its list of values. -/
structure Entry where
  dn : String
  attrs : List (String × List String)
deriving DecidableEq

/-- Formatting configuration handed to generateCSV: the field separator, the
text delimiter and the maximum number of columns per attribute. -/
structure Config where
  fieldSeparatorCharacter : String
  textDelimiter : String
  maximumColumns : Nat
deriving DecidableEq

/-- Association-list lookup: the embedding of Python dict indexing d[k] and,
through Option.isSome, of the membership test k in d. -/
def lookupA {α : Type} : List (String × α) → String → Option α
  | [], _ => none
  | p :: rest, k => if p.1 = k then some p.2 else lookupA rest k

/-- Association-list update d[k] = v with Python dict semantics: an existing
key keeps its position, a new key is appended at the end. -/
def setKey {α : Type} : List (String × α) → String → α → List (String × α)
  | [], k, v => [(k, v)]
  | p :: rest, k, v => if p.1 = k then (k, v) :: rest else p :: setKey rest k v

/-- Body of the attribute loop of LDIFAttributeParser.handle: record the
cardinality of one attribute of the current entry, keeping the largest
cardinality seen so far for that attribute name. -/
def updateCardinality (acc : List (String × Nat)) (p : String × List String) :
    List (String × Nat) :=
  match lookupA acc p.1 with
  | none => setKey acc p.1 p.2.length
  | some c => if p.2.length > c then setKey acc p.1 p.2.length else acc

/-- LDIFAttributeParser.handle: called once per parsed entry during the first
pass; stores cardinality 1 for the name of the distinguished-name column and
then folds the attribute loop over the keys of the entry. -/
def LDIFAttributeParser.handle (m : List (String × Nat)) (e : Entry) :
    List (String × Nat) :=
  e.attrs.foldl updateCardinality (setKey m "dn" 1)

/-- parseLDIFAttributes: the first pass over the stream.  The parser object
starts with an empty attributeDictionary and handle runs once per entry. -/
def parseLDIFAttributes (stream : List Entry) : List (String × Nat) :=
  stream.foldl LDIFAttributeParser.handle []

/-- LDIFCSVParser.check_printable: true when every character of the message
has code point at least 32 and at most 126. -/
def check_printable (message : String) : Bool :=
  message.data.all (fun char => !(126 < char.toNat || char.toNat < 32))

/-- Lower-case hexadecimal digit character for a value below 16. -/
def hexDigit (n : Nat) : Char :=
  if n < 10 then Char.ofNat (48 + n) else Char.ofNat (87 + n)

/-- Escape of a single character inside the Python 3 repr of a string whose
characters are ASCII, given the chosen quote character q: backslash and the
quote are backslash-escaped, tab, newline and carriage return use their
two-character escapes, the remaining control characters and the delete
character become a hexadecimal escape, and every other ASCII character
stands for itself. -/
def escapeChar (q : Char) (c : Char) : List Char :=
  if c = '\\' ∨ c = q then ['\\', c]
  else if c = '\t' then ['\\', 't']
  else if c = '\n' then ['\\', 'n']
  else if c = '\r' then ['\\', 'r']
  else if c.toNat < 32 ∨ c.toNat = 127 then
    ['\\', 'x', hexDigit (c.toNat / 16), hexDigit (c.toNat % 16)]
  else [c]

/-- Model of the Python 3 builtin repr on strings: a single quote is used
unless the string contains a single quote and no double quote, and every
character is escaped by escapeChar.  The model is exact for strings whose
characters are ASCII (code points at most 127), and also agrees with Python
on characters above 127 that are Unicode-printable, such as é, which both
pass through as they are; it diverges from Python only on non-printable
characters above 127, which Python turns into hexadecimal escapes using its
Unicode tables while this model passes them through. -/
def pyRepr (s : String) : String :=
  let q : Char := if s.data.contains '\'' ∧ ¬ s.data.contains '"' then '"' else '\''
  String.mk (q :: (s.data.map (escapeChar q)).flatten ++ [q])

/-- The per-attribute column count computed identically by the header loop of
generateCSV and by the row loop of LDIFCSVParser.handle: the stored
cardinality, truncated to maximumColumns when it exceeds it. -/
def numberOfTimesToPrint (card maximumColumns : Nat) : Nat :=
  if card > maximumColumns then maximumColumns else card

/-- State of the CSV pass: the shared attribute dictionary and the sequence
of strings written to the output sink so far. -/
structure PState where
  attributeDictionary : List (String × Nat)
  output : List String
deriving DecidableEq

/-- A single defaultOutput.write call. -/
def writeOut (s : PState) (t : String) : PState :=
  ⟨ s.attributeDictionary, s.output ++ [t] ⟩

/-- The string written for one value cell: the value itself between text
delimiters when printable, otherwise its repr between text delimiters, in
both cases followed by the field separator. -/
def valueCellWrite (cfg : Config) (v : String) : String :=
  if check_printable v then
    cfg.textDelimiter ++ v ++ cfg.textDelimiter ++ cfg.fieldSeparatorCharacter
  else
    cfg.textDelimiter ++ pyRepr v ++ cfg.textDelimiter ++ cfg.fieldSeparatorCharacter

/-- list(dict.keys()) followed by sort(): the attribute names of the
dictionary in lexicographic (code-point) order. -/
def sortedNames (m : List (String × Nat)) : List String :=
  List.insertionSort (fun a b => a ≤ b) (m.map Prod.fst)

/-- The writes performed for one attribute name inside LDIFCSVParser.handle:
an attribute present in the entry yields n cells taken from its values and
padded with empty cells, an absent attribute named like the
distinguished-name column yields the single distinguished-name cell, and any
other absent attribute yields n empty cells. -/
def attrWritesStep (cfg : Config) (dn : String) (entry : List (String × List String))
    (name : String) (n : Nat) (s : PState) : PState :=
  match lookupA entry name with
  | some vals =>
      (List.range n).foldl (fun st i =>
        writeOut st (match vals[i]? with
          | some v => valueCellWrite cfg v
          | none => cfg.textDelimiter ++ cfg.textDelimiter ++ cfg.fieldSeparatorCharacter)) s
  | none =>
      if name = "dn" then
        writeOut s (cfg.textDelimiter ++ dn ++ cfg.textDelimiter ++ cfg.fieldSeparatorCharacter)
      else
        (List.range n).foldl (fun st _ =>
          writeOut st (cfg.textDelimiter ++ cfg.textDelimiter ++ cfg.fieldSeparatorCharacter)) s

/-- LDIFCSVParser.handle: called once per parsed entry during the second
pass; walks the sorted attribute names of the shared dictionary, writes the
cells of each attribute and terminates the row with a newline write. -/
def LDIFCSVParser.handle (cfg : Config) (dn : String)
    (entry : List (String × List String)) (s : PState) : PState :=
  let allAttributeNames := sortedNames s.attributeDictionary
  writeOut
    (allAttributeNames.foldl (fun st name =>
      attrWritesStep cfg dn entry name
        (numberOfTimesToPrint ((lookupA st.attributeDictionary name).getD 0)
          cfg.maximumColumns) st) s)
    "\n"

/-- The writes performed for one column name of the CSV header inside
generateCSV: the column name between text delimiters followed by the field
separator, once per allotted column. -/
def headerStep (cfg : Config) (m : List (String × Nat)) (columnName : String)
    (s : PState) : PState :=
  (List.range (numberOfTimesToPrint ((lookupA m columnName).getD 0) cfg.maximumColumns)).foldl
    (fun st _ =>
      writeOut st (cfg.textDelimiter ++ columnName ++ cfg.textDelimiter ++ cfg.fieldSeparatorCharacter)) s

/-- generateCSV: the second pass.  Writes the sorted header cells, a newline,
then lets the CSV parser handle every entry of the re-read stream, and ends
with one final newline write. -/
def generateCSV (attributeDictionary : List (String × Nat)) (stream : List Entry)
    (cfg : Config) : PState :=
  let s : PState := ⟨ attributeDictionary, [] ⟩
  let s := (sortedNames attributeDictionary).foldl
    (fun st name => headerStep cfg attributeDictionary name st) s
  let s := writeOut s "\n"
  let s := stream.foldl (fun st e => LDIFCSVParser.handle cfg e.dn e.attrs st) s
  writeOut s "\n"

/-- Content placed between the text delimiters for one value. -/
def renderValue (v : String) : String :=
  if check_printable v then v else pyRepr v

/-- The full text of one written cell with content between the delimiters. -/
def cellWrite (cfg : Config) (content : String) : String :=
  cfg.textDelimiter ++ content ++ cfg.textDelimiter ++ cfg.fieldSeparatorCharacter

/-- Columns allotted to an attribute name by the dictionary and the limit. -/
def colsFor (cfg : Config) (m : List (String × Nat)) (name : String) : Nat :=
  numberOfTimesToPrint ((lookupA m name).getD 0) cfg.maximumColumns

/-- Cell contents emitted for one attribute name of one entry row. -/
def attrCellContents (dn : String) (entry : List (String × List String))
    (name : String) (n : Nat) : List String :=
  match lookupA entry name with
  | some vals => (List.range n).map (fun i =>
      match vals[i]? with
      | some v => renderValue v
      | none => "")
  | none => if name = "dn" then [dn] else List.replicate n ""

/-- Cell contents of the data row of one entry, attribute blocks in sorted
name order. -/
def rowCellContents (cfg : Config) (m : List (String × Nat)) (dn : String)
    (entry : List (String × List String)) : List String :=
  ((sortedNames m).map (fun name => attrCellContents dn entry name (colsFor cfg m name))).flatten

/-- Cell contents of the header line, attribute blocks in sorted name order. -/
def headerCellContents (cfg : Config) (m : List (String × Nat)) : List String :=
  ((sortedNames m).map (fun name => List.replicate (colsFor cfg m name) name)).flatten

/-- The column count announced by the specification: the sum over the sorted
attribute names of the cardinality capped at maximumColumns. -/
def totalColumns (cfg : Config) (m : List (String × Nat)) : Nat :=
  ((sortedNames m).map (fun name => min ((lookupA m name).getD 0) cfg.maximumColumns)).sum

/-- Number of values an attribute name holds in an entry, zero when absent. -/
def valueCount (e : Entry) (name : String) : Nat :=
  ((lookupA e.attrs name).getD []).length

/-- The true maximum over all entries of the number of values a name holds. -/
def maxValueCount (stream : List Entry) (name : String) : Nat :=
  stream.foldl (fun n e => max n (valueCount e name)) 0

/-- Whether a name is present as an attribute of at least one entry. -/
def appearsIn (stream : List Entry) (name : String) : Bool :=
  stream.any (fun e => (lookupA e.attrs name).isSome)


/-! ### Association list lemmas -/

theorem lookupA_setKey_self {α : Type} (l : List (String × α)) (k : String) (v : α) :
    lookupA (setKey l k v) k = some v := by
  induction l with
  | nil => simp [setKey, lookupA]
  | cons p rest ih =>
      obtain ⟨a, b⟩ := p
      by_cases hp : a = k
      · subst hp
        simp [setKey, lookupA]
      · simp [setKey, hp, lookupA, ih]

theorem lookupA_setKey_other {α : Type} (l : List (String × α)) (k k' : String) (v : α)
    (h : k ≠ k') : lookupA (setKey l k v) k' = lookupA l k' := by
  induction l with
  | nil => simp [setKey, lookupA, h]
  | cons p rest ih =>
      obtain ⟨a, b⟩ := p
      by_cases hp : a = k
      · subst hp
        simp [setKey, lookupA, h]
      · simp only [setKey, lookupA, if_neg hp]
        by_cases hp' : a = k'
        · simp [lookupA, hp']
        · simp [lookupA, hp', ih]

theorem lookupA_eq_none_iff {α : Type} (l : List (String × α)) (k : String) :
    lookupA l k = none ↔ ∀ p ∈ l, p.1 ≠ k := by
  induction l with
  | nil => simp [lookupA]
  | cons p rest ih =>
      by_cases hp : p.1 = k
      · simp [lookupA, hp]
      · simp [lookupA, hp, ih]

/-! ### Emission pass: from state folds to pure cell lists -/

theorem foldl_writeOut {α : Type} (g : α → String) (l : List α) (s : PState) :
    l.foldl (fun st a => writeOut st (g a)) s =
      ⟨ s.attributeDictionary, s.output ++ l.map g ⟩ := by
  induction l generalizing s with
  | nil => simp
  | cons a l ih =>
      rw [List.foldl_cons, ih]
      simp [writeOut]

theorem cellWrite_empty (cfg : Config) :
    cfg.textDelimiter ++ cfg.textDelimiter ++ cfg.fieldSeparatorCharacter = cellWrite cfg "" := by
  simp [cellWrite]

theorem valueCellWrite_eq (cfg : Config) (v : String) :
    valueCellWrite cfg v = cellWrite cfg (renderValue v) := by
  simp only [valueCellWrite, cellWrite, renderValue]
  split <;> rfl

theorem attrWritesStep_eq (cfg : Config) (dn : String) (entry : List (String × List String))
    (name : String) (n : Nat) (s : PState) :
    attrWritesStep cfg dn entry name n s =
      ⟨ s.attributeDictionary,
        s.output ++ (attrCellContents dn entry name n).map (cellWrite cfg) ⟩ := by
  cases h : lookupA entry name with
  | some vals =>
      simp only [attrWritesStep, attrCellContents, h]
      rw [foldl_writeOut, List.map_map]
      congr 2
      apply List.map_congr_left
      intro i _
      simp only [Function.comp]
      cases hv : vals[i]? with
      | some v => simp [valueCellWrite_eq]
      | none => simp [cellWrite_empty]
  | none =>
      simp only [attrWritesStep, attrCellContents, h]
      by_cases hd : name = "dn"
      · simp [hd, writeOut, cellWrite]
      · simp only [if_neg hd]
        rw [foldl_writeOut]
        congr 2
        simp only [List.map_replicate]
        rw [cellWrite_empty]
        rw [show (fun _ : Nat => cellWrite cfg "") = Function.const Nat (cellWrite cfg "") from rfl]
        rw [List.map_const, List.length_range]

theorem foldl_attrStep (cfg : Config) (dn : String) (entry : List (String × List String))
    (names : List String) (s : PState) :
    names.foldl (fun st name =>
        attrWritesStep cfg dn entry name
          (numberOfTimesToPrint ((lookupA st.attributeDictionary name).getD 0)
            cfg.maximumColumns) st) s =
      ⟨ s.attributeDictionary,
        s.output ++
          ((names.map (fun name =>
            attrCellContents dn entry name (colsFor cfg s.attributeDictionary name))).flatten).map
            (cellWrite cfg) ⟩ := by
  induction names generalizing s with
  | nil => simp
  | cons a names ih =>
      rw [List.foldl_cons, attrWritesStep_eq, ih]
      simp [colsFor, List.append_assoc]

theorem handle_eq (cfg : Config) (dn : String) (entry : List (String × List String))
    (s : PState) :
    LDIFCSVParser.handle cfg dn entry s =
      ⟨ s.attributeDictionary,
        s.output ++ (rowCellContents cfg s.attributeDictionary dn entry).map (cellWrite cfg)
          ++ ["\n"] ⟩ := by
  show writeOut _ _ = _
  rw [foldl_attrStep]
  simp [writeOut, rowCellContents, List.append_assoc]

theorem headerStep_eq (cfg : Config) (m : List (String × Nat)) (columnName : String)
    (s : PState) :
    headerStep cfg m columnName s =
      ⟨ s.attributeDictionary,
        s.output ++ (List.replicate (colsFor cfg m columnName) columnName).map (cellWrite cfg) ⟩ := by
  unfold headerStep
  rw [foldl_writeOut]
  congr 2
  simp only [List.map_replicate]
  rw [show (fun _ : Nat => cfg.textDelimiter ++ columnName ++ cfg.textDelimiter ++ cfg.fieldSeparatorCharacter)
        = Function.const Nat (cellWrite cfg columnName) from rfl]
  rw [List.map_const, List.length_range, colsFor]

theorem foldl_headerStep (cfg : Config) (m : List (String × Nat))
    (names : List String) (s : PState) :
    names.foldl (fun st name => headerStep cfg m name st) s =
      ⟨ s.attributeDictionary,
        s.output ++
          ((names.map (fun name => List.replicate (colsFor cfg m name) name)).flatten).map
            (cellWrite cfg) ⟩ := by
  induction names generalizing s with
  | nil => simp
  | cons a names ih =>
      rw [List.foldl_cons, headerStep_eq, ih]
      simp [List.append_assoc]

theorem foldl_handle (cfg : Config) (stream : List Entry) (s : PState) :
    stream.foldl (fun st e => LDIFCSVParser.handle cfg e.dn e.attrs st) s =
      ⟨ s.attributeDictionary,
        s.output ++ (stream.map (fun e =>
          (rowCellContents cfg s.attributeDictionary e.dn e.attrs).map (cellWrite cfg)
            ++ ["\n"])).flatten ⟩ := by
  induction stream generalizing s with
  | nil => simp
  | cons e stream ih =>
      rw [List.foldl_cons, handle_eq, ih]
      simp [List.append_assoc]

theorem generateCSV_eq (m : List (String × Nat)) (stream : List Entry) (cfg : Config) :
    generateCSV m stream cfg =
      ⟨ m, (headerCellContents cfg m).map (cellWrite cfg) ++ ["\n"]
            ++ (stream.map (fun e =>
                (rowCellContents cfg m e.dn e.attrs).map (cellWrite cfg) ++ ["\n"])).flatten
            ++ ["\n"] ⟩ := by
  show writeOut (List.foldl _ (writeOut (List.foldl _ ⟨ m, [] ⟩ _) _) _) _ = _
  rw [foldl_headerStep]
  rw [show writeOut (⟨ m, [] ++ ((((sortedNames m).map (fun name => List.replicate (colsFor cfg m name) name)).flatten).map (cellWrite cfg)) ⟩ : PState) "\n"
        = ⟨ m, ((((sortedNames m).map (fun name => List.replicate (colsFor cfg m name) name)).flatten).map (cellWrite cfg)) ++ ["\n"] ⟩ from by simp [writeOut]]
  rw [foldl_handle, writeOut]
  simp [headerCellContents, List.append_assoc]

/-! ### Discovery pass lemmas -/

theorem updateCardinality_other (acc : List (String × Nat)) (p : String × List String)
    (A : String) (h : p.1 ≠ A) :
    lookupA (updateCardinality acc p) A = lookupA acc A := by
  unfold updateCardinality
  cases hl : lookupA acc p.1 with
  | none => exact lookupA_setKey_other acc p.1 A p.2.length h
  | some c =>
      by_cases hgt : p.2.length > c
      · simp only [if_pos hgt]
        exact lookupA_setKey_other acc p.1 A p.2.length h
      · simp only [if_neg hgt]

theorem updateCardinality_self (acc : List (String × Nat)) (p : String × List String) :
    lookupA (updateCardinality acc p) p.1 =
      some (max ((lookupA acc p.1).getD 0) p.2.length) := by
  unfold updateCardinality
  cases hl : lookupA acc p.1 with
  | none =>
      simp only [Option.getD_none]
      rw [lookupA_setKey_self]
      simp
  | some c =>
      by_cases hgt : p.2.length > c
      · simp only [if_pos hgt, Option.getD_some]
        rw [lookupA_setKey_self]
        congr 1
        omega
      · simp only [if_neg hgt, Option.getD_some, hl]
        congr 1
        omega

theorem foldl_updateCardinality_not_mem (pairs : List (String × List String))
    (A : String) (hA : lookupA pairs A = none) (acc : List (String × Nat)) :
    lookupA (pairs.foldl updateCardinality acc) A = lookupA acc A := by
  induction pairs generalizing acc with
  | nil => rfl
  | cons p pairs ih =>
      rw [lookupA_eq_none_iff] at hA
      have hp : p.1 ≠ A := hA p (by simp)
      have hnone : lookupA pairs A = none := by
        rw [lookupA_eq_none_iff]
        intro q hq
        exact hA q (by simp [hq])
      rw [List.foldl_cons, ih hnone (updateCardinality acc p)]
      exact updateCardinality_other acc p A hp

theorem foldl_updateCardinality_mem (pairs : List (String × List String))
    (A : String) (vals : List String) (hA : lookupA pairs A = some vals)
    (hnd : (pairs.map Prod.fst).Nodup) (acc : List (String × Nat)) :
    lookupA (pairs.foldl updateCardinality acc) A =
      some (max ((lookupA acc A).getD 0) vals.length) := by
  induction pairs generalizing acc with
  | nil => simp [lookupA] at hA
  | cons p pairs ih =>
      by_cases hp : p.1 = A
      · have hv : p.2 = vals := by
          simp only [lookupA, if_pos hp] at hA
          exact Option.some_injective _ hA
        have hnot : lookupA pairs A = none := by
          rw [lookupA_eq_none_iff]
          intro q hq hqA
          have : p.1 ∈ pairs.map Prod.fst := by
            rw [hp, ← hqA]
            exact List.mem_map_of_mem Prod.fst hq
          simp only [List.map_cons, List.nodup_cons] at hnd
          exact hnd.1 this
        rw [List.foldl_cons, foldl_updateCardinality_not_mem pairs A hnot]
        rw [← hp, ← hv]
        exact updateCardinality_self acc p
      · have hA' : lookupA pairs A = some vals := by
          simpa only [lookupA, if_neg hp] using hA
        have hnd' : (pairs.map Prod.fst).Nodup := by
          simp only [List.map_cons, List.nodup_cons] at hnd
          exact hnd.2
        rw [List.foldl_cons, ih hA' hnd']
        rw [updateCardinality_other acc p A hp]

theorem handle_lookup_dn (m : List (String × Nat)) (e : Entry)
    (he : lookupA e.attrs "dn" = none) :
    lookupA (LDIFAttributeParser.handle m e) "dn" = some 1 := by
  unfold LDIFAttributeParser.handle
  rw [foldl_updateCardinality_not_mem e.attrs "dn" he]
  exact lookupA_setKey_self m "dn" 1

theorem handle_lookup_absent (m : List (String × Nat)) (e : Entry) (A : String)
    (hA : A ≠ "dn") (he : lookupA e.attrs A = none) :
    lookupA (LDIFAttributeParser.handle m e) A = lookupA m A := by
  unfold LDIFAttributeParser.handle
  rw [foldl_updateCardinality_not_mem e.attrs A he]
  exact lookupA_setKey_other m "dn" A 1 (fun h => hA h.symm)

theorem handle_lookup_present (m : List (String × Nat)) (e : Entry) (A : String)
    (vals : List String) (hA : A ≠ "dn") (hnd : (e.attrs.map Prod.fst).Nodup)
    (he : lookupA e.attrs A = some vals) :
    lookupA (LDIFAttributeParser.handle m e) A =
      some (max ((lookupA m A).getD 0) vals.length) := by
  unfold LDIFAttributeParser.handle
  rw [foldl_updateCardinality_mem e.attrs A vals he hnd]
  rw [lookupA_setKey_other m "dn" A 1 (fun h => hA h.symm)]

theorem foldl_max_shift (f : Entry → Nat) (l : List Entry) (a : Nat) :
    l.foldl (fun n e => max n (f e)) a = max a (l.foldl (fun n e => max n (f e)) 0) := by
  induction l generalizing a with
  | nil => simp
  | cons e l ih =>
      rw [List.foldl_cons, List.foldl_cons, ih, ih (max 0 (f e))]
      omega

theorem maxValueCount_cons (e : Entry) (stream : List Entry) (A : String) :
    maxValueCount (e :: stream) A = max (valueCount e A) (maxValueCount stream A) := by
  unfold maxValueCount
  rw [List.foldl_cons, foldl_max_shift]
  omega

theorem maxValueCount_not_appears (stream : List Entry) (A : String)
    (h : appearsIn stream A = false) : maxValueCount stream A = 0 := by
  induction stream with
  | nil => rfl
  | cons e stream ih =>
      simp only [appearsIn, List.any_cons, Bool.or_eq_false_iff] at h
      have h1 : valueCount e A = 0 := by
        unfold valueCount
        cases hl : lookupA e.attrs A with
        | none => simp
        | some vals => simp [hl] at h
      have h2 : maxValueCount stream A = 0 := by
        apply ih
        simpa [appearsIn] using h.2
      rw [maxValueCount_cons, h1, h2]
      omega

theorem discovery_fold_lookup (A : String) (hA : A ≠ "dn") (stream : List Entry)
    (hnd : ∀ e ∈ stream, (e.attrs.map Prod.fst).Nodup) (m : List (String × Nat)) :
    lookupA (stream.foldl LDIFAttributeParser.handle m) A =
      if appearsIn stream A = true then
        some (max ((lookupA m A).getD 0) (maxValueCount stream A))
      else lookupA m A := by
  induction stream generalizing m with
  | nil => simp [appearsIn]
  | cons e stream ih =>
      have hne : (e.attrs.map Prod.fst).Nodup := hnd e (by simp)
      have hnd' : ∀ e' ∈ stream, (e'.attrs.map Prod.fst).Nodup := by
        intro e' he'
        exact hnd e' (by simp [he'])
      rw [List.foldl_cons, ih hnd']
      cases he : lookupA e.attrs A with
      | none =>
          have happ : appearsIn (e :: stream) A = appearsIn stream A := by
            simp [appearsIn, he]
          have hvc : valueCount e A = 0 := by
            simp [valueCount, he]
          rw [handle_lookup_absent m e A hA he, happ, maxValueCount_cons, hvc]
          by_cases hs : appearsIn stream A = true
          · rw [if_pos hs, if_pos hs]
            congr 2
            omega
          · rw [if_neg hs, if_neg hs]
      | some vals =>
          have happ : appearsIn (e :: stream) A = true := by
            simp [appearsIn, he]
          have hvc : valueCount e A = vals.length := by
            simp [valueCount, he]
          rw [handle_lookup_present m e A vals hA hne he, happ, if_pos rfl,
            maxValueCount_cons, hvc]
          by_cases hs : appearsIn stream A = true
          · rw [if_pos hs]
            simp only [Option.getD_some]
            congr 1
            omega
          · rw [if_neg hs, maxValueCount_not_appears stream A (by simpa using hs)]
            congr 1
            omega

theorem discovery_fold_dn (stream : List Entry)
    (hdn : ∀ e ∈ stream, lookupA e.attrs "dn" = none) (hne : stream ≠ [])
    (m : List (String × Nat)) :
    lookupA (stream.foldl LDIFAttributeParser.handle m) "dn" = some 1 := by
  induction stream generalizing m with
  | nil => exact absurd rfl hne
  | cons e stream ih =>
      rw [List.foldl_cons]
      by_cases hs : stream = []
      · subst hs
        exact handle_lookup_dn m e (hdn e (by simp))
      · exact ih (fun e' he' => hdn e' (by simp [he'])) hs _

/-! ### Cell content helper lemmas -/

theorem numberOfTimesToPrint_eq_min (card mc : Nat) :
    numberOfTimesToPrint card mc = min card mc := by
  unfold numberOfTimesToPrint
  split <;> omega

theorem range_map_get (vals : List String) (n : Nat) :
    (List.range n).map (fun i =>
      match vals[i]? with
      | some v => renderValue v
      | none => "") =
    (vals.take n).map renderValue ++ List.replicate (n - vals.length) "" := by
  induction vals generalizing n with
  | nil => simp [List.map_const']
  | cons v vs ih =>
      cases n with
      | zero => simp
      | succ n =>
          rw [List.range_succ_eq_map, List.map_cons, List.map_map]
          have hmap : (List.range n).map ((fun i =>
              match (v :: vs)[i]? with
              | some w => renderValue w
              | none => "") ∘ Nat.succ) =
              (List.range n).map (fun i =>
              match vs[i]? with
              | some w => renderValue w
              | none => "") := by
            apply List.map_congr_left
            intro i _
            simp
          rw [hmap, ih]
          simp [List.take_succ_cons, Nat.succ_sub_succ]

theorem attrCellContents_present (dn : String) (entry : List (String × List String))
    (name : String) (vals : List String) (n : Nat)
    (hA : lookupA entry name = some vals) :
    attrCellContents dn entry name n =
      (vals.take n).map renderValue ++ List.replicate (n - vals.length) "" := by
  simp only [attrCellContents, hA]
  exact range_map_get vals n

theorem attrCellContents_absent (dn : String) (entry : List (String × List String))
    (name : String) (n : Nat) (hA : lookupA entry name = none) (hname : name ≠ "dn") :
    attrCellContents dn entry name n = List.replicate n "" := by
  simp [attrCellContents, hA, hname]

theorem attrCellContents_dn (dn : String) (entry : List (String × List String))
    (n : Nat) (hA : lookupA entry "dn" = none) :
    attrCellContents dn entry "dn" n = [dn] := by
  simp [attrCellContents, hA]

theorem renderValue_printable (v : String) (h : check_printable v = true) :
    renderValue v = v := by
  simp [renderValue, h]

theorem map_renderValue_printable (l : List String)
    (h : ∀ v ∈ l, check_printable v = true) : l.map renderValue = l := by
  conv_rhs => rw [← List.map_id l]
  apply List.map_congr_left
  intro v hv
  simp [renderValue, h v hv]

/-! ### Sorted name list lemmas -/

theorem sortedNames_sorted (m : List (String × Nat)) :
    List.Sorted (fun a b => a ≤ b) (sortedNames m) :=
  List.sorted_insertionSort _ _

theorem sortedNames_perm (m : List (String × Nat)) :
    (sortedNames m).Perm (m.map Prod.fst) :=
  List.perm_insertionSort _ _

theorem mem_sortedNames (m : List (String × Nat)) (name : String) :
    name ∈ sortedNames m ↔ name ∈ m.map Prod.fst :=
  List.mem_insertionSort _

/-! ### Python repr stays in the printable ASCII range on ASCII input -/

theorem hexDigit_range : ∀ k, k < 16 → 32 ≤ (hexDigit k).toNat ∧ (hexDigit k).toNat ≤ 126 := by
  decide

theorem escapeChar_range (q c : Char) (hq : q = '\'' ∨ q = '"') (hc : c.toNat ≤ 127) :
    ∀ d ∈ escapeChar q c, 32 ≤ d.toNat ∧ d.toNat ≤ 126 := by
  intro d hd
  unfold escapeChar at hd
  by_cases h1 : c = '\\' ∨ c = q
  · rw [if_pos h1] at hd
    simp only [List.mem_cons, List.not_mem_nil, or_false] at hd
    rcases hd with hd | hd
    · subst hd
      decide
    · subst hd
      rcases h1 with h | h
      · subst h
        decide
      · subst h
        rcases hq with h | h
        · subst h
          decide
        · subst h
          decide
  · rw [if_neg h1] at hd
    by_cases h2 : c = '\t'
    · rw [if_pos h2] at hd
      simp only [List.mem_cons, List.not_mem_nil, or_false] at hd
      rcases hd with hd | hd <;> subst hd <;> decide
    · rw [if_neg h2] at hd
      by_cases h3 : c = '\n'
      · rw [if_pos h3] at hd
        simp only [List.mem_cons, List.not_mem_nil, or_false] at hd
        rcases hd with hd | hd <;> subst hd <;> decide
      · rw [if_neg h3] at hd
        by_cases h4 : c = '\r'
        · rw [if_pos h4] at hd
          simp only [List.mem_cons, List.not_mem_nil, or_false] at hd
          rcases hd with hd | hd <;> subst hd <;> decide
        · rw [if_neg h4] at hd
          by_cases h5 : c.toNat < 32 ∨ c.toNat = 127
          · rw [if_pos h5] at hd
            simp only [List.mem_cons, List.not_mem_nil, or_false] at hd
            rcases hd with hd | hd | hd | hd <;> subst hd
            · decide
            · decide
            · exact hexDigit_range _ (by omega)
            · exact hexDigit_range _ (by omega)
          · rw [if_neg h5] at hd
            simp only [List.mem_cons, List.not_mem_nil, or_false] at hd
            subst hd
            push_neg at h5
            omega

theorem pyRepr_range (s : String) (hs : ∀ c ∈ s.data, c.toNat ≤ 127) :
    ∀ d ∈ (pyRepr s).data, 32 ≤ d.toNat ∧ d.toNat ≤ 126 := by
  intro d hd
  have hq : (if s.data.contains '\'' ∧ ¬ s.data.contains '"' then '"' else '\'') = '\'' ∨
      (if s.data.contains '\'' ∧ ¬ s.data.contains '"' then '"' else '\'') = '"' := by
    split
    · exact Or.inr rfl
    · exact Or.inl rfl
  simp only [pyRepr] at hd
  rcases List.mem_cons.mp hd with hd | hd
  · subst hd
    rcases hq with h | h <;> rw [h] <;> decide
  · rcases List.mem_append.mp hd with hd | hd
    · rcases List.mem_flatten.mp hd with ⟨l, hl, hdl⟩
      rcases List.mem_map.mp hl with ⟨c, hc, rfl⟩
      exact escapeChar_range _ c hq (hs c hc) d hdl
    · simp only [List.mem_singleton] at hd
      subst hd
      rcases hq with h | h <;> rw [h] <;> decide

/-! ### String join lemmas for line endings -/

theorem foldl_string_append (l : List String) (a : String) :
    l.foldl (fun r s => r ++ s) a = a ++ l.foldl (fun r s => r ++ s) "" := by
  induction l generalizing a with
  | nil => simp
  | cons w l ih =>
      rw [List.foldl_cons, List.foldl_cons, ih, ih ("" ++ w)]
      simp [String.append_assoc]

theorem join_cons_eq (w : String) (l : List String) :
    String.join (w :: l) = w ++ String.join l := by
  show List.foldl (fun r s => r ++ s) _ _ = _
  rw [List.foldl_cons, foldl_string_append]
  rfl

theorem join_ends_with (sep : String) (l : List String)
    (h : ∀ w ∈ l, ∃ a, w = a ++ sep) (hne : l ≠ []) :
    ∃ p, String.join l = p ++ sep := by
  induction l with
  | nil => exact absurd rfl hne
  | cons w l ih =>
      by_cases hl : l = []
      · subst hl
        obtain ⟨a, ha⟩ := h w (by simp)
        refine ⟨a, ?_⟩
        rw [join_cons_eq, ha, show String.join [] = "" from rfl, String.append_empty]
      · obtain ⟨p, hp⟩ := ih (fun w' hw' => h w' (by simp [hw'])) hl
        refine ⟨w ++ p, ?_⟩
        rw [join_cons_eq, hp, String.append_assoc]

/-! ### Claims -/

/-- C7: The header line lists the attribute names of the cardinality map in
lexicographic order over the name strings, and for each name emits exactly
min(cardinality, maximumColumns) delimited header cells, each cell
containing that attribute name. -/
theorem header_generation (cfg : Config) (m : List (String × Nat)) :
    headerCellContents cfg m =
      ((sortedNames m).map (fun name =>
        List.replicate (min ((lookupA m name).getD 0) cfg.maximumColumns) name)).flatten ∧
    List.Sorted (fun a b => a ≤ b) (sortedNames m) ∧
    (sortedNames m).Perm (m.map Prod.fst) := by
  refine ⟨?_, sortedNames_sorted m, sortedNames_perm m⟩
  unfold headerCellContents
  congr 1
  apply List.map_congr_left
  intro name _
  rw [colsFor, numberOfTimesToPrint_eq_min]

/-- C8: After the header line and all data rows have been written, the
second pass performs exactly one extra newline write to the sink as the
final output, for every input including a stream with zero entries. -/
theorem trailing_blank_line (m : List (String × Nat)) (stream : List Entry)
    (cfg : Config) :
    (generateCSV m stream cfg).output =
      ((headerCellContents cfg m).map (cellWrite cfg) ++ ["\n"]
        ++ (stream.map (fun e =>
            (rowCellContents cfg m e.dn e.attrs).map (cellWrite cfg) ++ ["\n"])).flatten)
      ++ ["\n"] ∧
    (generateCSV m stream cfg).output.getLast? = some "\n" := by
  constructor
  · rw [generateCSV_eq]
  · rw [generateCSV_eq]
    exact List.getLast?_concat _

/-- C9: The Emission pass never mutates the Attribute Cardinality Map: for
every entry stream and configuration, the dictionary carried by the parser
state after the whole second pass (header generation plus every emitted
row) equals the dictionary that was handed over. -/
theorem emission_preserves_map (m : List (String × Nat)) (stream : List Entry)
    (cfg : Config) : (generateCSV m stream cfg).attributeDictionary = m := by
  rw [generateCSV_eq]

/-- C3 (amended): For every entry stream with at least one entry, the map
returned by the first pass binds the synthetic key "dn" to cardinality one.
The binding is created while handling each entry, not at parser
construction, so for the empty stream the returned map is empty and has no
"dn" key. -/
theorem dn_in_map_of_nonempty (stream : List Entry) (hne : stream ≠ [])
    (hdn : ∀ e ∈ stream, lookupA e.attrs "dn" = none) :
    lookupA (parseLDIFAttributes stream) "dn" = some 1 :=
  discovery_fold_dn stream hdn hne []

theorem dn_in_map_of_nonempty_witness :
    lookupA (parseLDIFAttributes [⟨ "cn=alice", [("cn", ["alice"])] ⟩]) "dn" = some 1 :=
  dn_in_map_of_nonempty [⟨ "cn=alice", [("cn", ["alice"])] ⟩] (by decide) (by decide)

/-- C3 counterexample: for the empty entry stream the first pass returns the
empty dictionary, which contains no binding for "dn" at all, refuting that
the map starts out holding a "dn" entry before any entry is processed. -/
theorem dn_empty_stream_cx :
    parseLDIFAttributes [] = [] ∧ lookupA (parseLDIFAttributes []) "dn" = none :=
  ⟨ rfl, rfl ⟩

/-- C2 (amended): For every entry stream with at least one entry, the map
produced by the first pass sends every attribute name that is present in at
least one entry to the maximum, over all entries, of the number of values
that name holds, and sends "dn" to exactly one; for the empty stream the
map is empty. -/
theorem cardinality_correctness (stream : List Entry) (hne : stream ≠ [])
    (hdn : ∀ e ∈ stream, lookupA e.attrs "dn" = none)
    (hwf : ∀ e ∈ stream, (e.attrs.map Prod.fst).Nodup) :
    (∀ A, appearsIn stream A = true →
      lookupA (parseLDIFAttributes stream) A = some (maxValueCount stream A)) ∧
    lookupA (parseLDIFAttributes stream) "dn" = some 1 := by
  constructor
  · intro A hApp
    by_cases hA : A = "dn"
    · exfalso
      subst hA
      unfold appearsIn at hApp
      rw [List.any_eq_true] at hApp
      obtain ⟨e, he, hsome⟩ := hApp
      rw [hdn e he] at hsome
      simp at hsome
    · unfold parseLDIFAttributes
      rw [discovery_fold_lookup A hA stream hwf [], if_pos hApp]
      show some (max ((Option.getD none 0)) _) = _
      simp
  · exact discovery_fold_dn stream hdn hne []

theorem cardinality_correctness_witness :
    lookupA (parseLDIFAttributes
        [⟨ "a", [("X", ["x1", "x2", "x3"])] ⟩, ⟨ "b", [("X", ["x4"])] ⟩]) "X"
      = some (maxValueCount
        [⟨ "a", [("X", ["x1", "x2", "x3"])] ⟩, ⟨ "b", [("X", ["x4"])] ⟩] "X") ∧
    lookupA (parseLDIFAttributes
        [⟨ "a", [("X", ["x1", "x2", "x3"])] ⟩, ⟨ "b", [("X", ["x4"])] ⟩]) "dn" = some 1 :=
  ⟨ (cardinality_correctness
      [⟨ "a", [("X", ["x1", "x2", "x3"])] ⟩, ⟨ "b", [("X", ["x4"])] ⟩]
      (by decide) (by decide) (by decide)).1 "X" (by decide),
    (cardinality_correctness
      [⟨ "a", [("X", ["x1", "x2", "x3"])] ⟩, ⟨ "b", [("X", ["x4"])] ⟩]
      (by decide) (by decide) (by decide)).2 ⟩

/-- C2 counterexample: the claim quantifies over every entry stream, but for
the empty stream the produced map has no "dn" binding, so it does not map
"dn" to exactly one. -/
theorem cardinality_correctness_cx :
    ¬ lookupA (parseLDIFAttributes []) "dn" = some 1 := by
  decide

/-- C4: Truncation policy: if an entry holds m values for an attribute A with
m greater than the allotted k = min(cardinality, maximumColumns) columns,
then the cells emitted for A in that entry's row are exactly the first k
values in their original order, and the row is the concatenation of the
per-attribute cell blocks in sorted name order, so no further value of A
appears in it. -/
theorem truncation_policy (cfg : Config) (m : List (String × Nat)) (dn : String)
    (entry : List (String × List String)) (A : String) (vals : List String)
    (hA : lookupA entry A = some vals)
    (hk : colsFor cfg m A < vals.length)
    (hp : ∀ v ∈ vals, check_printable v = true) :
    attrCellContents dn entry A (colsFor cfg m A) = vals.take (colsFor cfg m A) ∧
    rowCellContents cfg m dn entry =
      ((sortedNames m).map (fun name =>
        attrCellContents dn entry name (colsFor cfg m name))).flatten := by
  refine ⟨?_, rfl⟩
  rw [attrCellContents_present dn entry A vals _ hA]
  have h1 : colsFor cfg m A - vals.length = 0 := by omega
  rw [h1, List.replicate_zero, List.append_nil]
  apply map_renderValue_printable
  intro v hv
  exact hp v (List.mem_of_mem_take hv)

theorem truncation_policy_witness :
    attrCellContents "a" [("X", ["x1", "x2", "x3"])] "X"
        (colsFor ⟨ ",", "\"", 2 ⟩ [("dn", 1), ("X", 3)] "X")
      = ["x1", "x2"] := by
  have h := (truncation_policy ⟨ ",", "\"", 2 ⟩ [("dn", 1), ("X", 3)] "a"
    [("X", ["x1", "x2", "x3"])] "X" ["x1", "x2", "x3"]
    (by decide) (by decide) (by decide)).1
  rw [h]
  decide

/-- C5: Padding policy: if an entry holds m values for attribute A with m
smaller than the allotted k columns, the cells emitted for A are the m
literal values followed by k - m empty cells; and an attribute of the map
other than "dn" that is absent from the entry yields k consecutive empty
cells at its position. -/
theorem padding_policy (cfg : Config) (m : List (String × Nat)) (dn : String)
    (entry : List (String × List String)) (A : String) (vals : List String)
    (hp : ∀ v ∈ vals, check_printable v = true) :
    (lookupA entry A = some vals → vals.length < colsFor cfg m A →
      attrCellContents dn entry A (colsFor cfg m A) =
        vals ++ List.replicate (colsFor cfg m A - vals.length) "") ∧
    (lookupA entry A = none → A ≠ "dn" →
      attrCellContents dn entry A (colsFor cfg m A) =
        List.replicate (colsFor cfg m A) "") := by
  constructor
  · intro hA hlen
    rw [attrCellContents_present dn entry A vals _ hA,
      List.take_of_length_le (by omega), map_renderValue_printable vals hp]
  · intro hA hdna
    exact attrCellContents_absent dn entry A _ hA hdna

theorem padding_policy_witness :
    attrCellContents "a" [("X", ["u"])] "X"
        (colsFor ⟨ ",", "\"", 3 ⟩ [("X", 3), ("Y", 2)] "X") = ["u", "", ""] ∧
    attrCellContents "a" [("X", ["u"])] "Y"
        (colsFor ⟨ ",", "\"", 3 ⟩ [("X", 3), ("Y", 2)] "Y") = ["", ""] := by
  constructor
  · have h := (padding_policy ⟨ ",", "\"", 3 ⟩ [("X", 3), ("Y", 2)] "a"
      [("X", ["u"])] "X" ["u"] (by decide)).1 (by decide) (by decide)
    rw [h]
    decide
  · have h := (padding_policy ⟨ ",", "\"", 3 ⟩ [("X", 3), ("Y", 2)] "a"
      [("X", ["u"])] "Y" ["u"] (by decide)).2 (by decide) (by decide)
    rw [h]
    decide

/-- C6 (amended): For every emitted value whose characters are ASCII: the printability
test succeeds exactly when every character has code point in [32, 126]; a
printable value is written literally between the configured text delimiter
strings followed by the separator; a non-printable value is written with
its repr between the delimiters instead, and no character of the value
outside the printable range occurs anywhere in that repr. -/
theorem nonprintable_escaping (cfg : Config) (v : String)
    (hascii : ∀ c ∈ v.data, c.toNat ≤ 127) :
    (check_printable v = true ↔ ∀ c ∈ v.data, 32 ≤ c.toNat ∧ c.toNat ≤ 126) ∧
    (check_printable v = true →
      valueCellWrite cfg v =
        cfg.textDelimiter ++ v ++ cfg.textDelimiter ++ cfg.fieldSeparatorCharacter) ∧
    (check_printable v = false →
      valueCellWrite cfg v =
        cfg.textDelimiter ++ pyRepr v ++ cfg.textDelimiter ++ cfg.fieldSeparatorCharacter ∧
      ∀ c ∈ v.data, (c.toNat < 32 ∨ 126 < c.toNat) → c ∉ (pyRepr v).data) := by
  refine ⟨?_, ?_, ?_⟩
  · unfold check_printable
    rw [List.all_eq_true]
    constructor
    · intro h c hc
      have h2 := h c hc
      simp only [Bool.not_eq_eq_eq_not, Bool.not_true, Bool.or_eq_false_iff,
        decide_eq_false_iff_not, not_lt] at h2
      omega
    · intro h c hc
      have h2 := h c hc
      simp only [Bool.not_eq_eq_eq_not, Bool.not_true, Bool.or_eq_false_iff,
        decide_eq_false_iff_not, not_lt]
      omega
  · intro h
    simp [valueCellWrite, h]
  · intro h
    refine ⟨by simp [valueCellWrite, h], ?_⟩
    intro c _ hrange hmem
    have h2 := pyRepr_range v hascii c hmem
    omega

theorem nonprintable_escaping_witness :
    check_printable "a\n" = false ∧
    valueCellWrite ⟨ ",", "\"", 5 ⟩ "a\n" = "\"" ++ pyRepr "a\n" ++ "\"" ++ "," := by
  have h := nonprintable_escaping ⟨ ",", "\"", 5 ⟩ "a\n" (by decide)
  exact ⟨ by decide, (h.2.2 (by decide)).1 ⟩

/-- C6 counterexample: the value consisting of the single character é has
code point 233, outside the printable range, so it fails the printability
test and the code emits its repr; Python's repr keeps printable non-ASCII
characters as they are, so the cell written to the sink contains the raw
character é itself rather than an escaped representation of it. -/
theorem nonprintable_escaping_cx :
    check_printable "é" = false ∧
    126 < ('é').toNat ∧
    valueCellWrite ⟨ ",", "\"", 5 ⟩ "é" = "\"" ++ pyRepr "é" ++ "\"" ++ "," ∧
    'é' ∈ (valueCellWrite ⟨ ",", "\"", 5 ⟩ "é").data := by
  decide

/-- C10: Every cell written to the sink, in the header line and in every data
row, has the shape delimiter, content, delimiter, field separator — so each
cell is immediately followed by the separator — and the text of every
non-empty line therefore ends with a trailing field separator just before
the terminating newline write. -/
theorem trailing_field_separator (cfg : Config) (m : List (String × Nat))
    (dn : String) (entry : List (String × List String)) :
    (∀ w ∈ (headerCellContents cfg m).map (cellWrite cfg), ∃ content,
      w = cfg.textDelimiter ++ content ++ cfg.textDelimiter ++ cfg.fieldSeparatorCharacter) ∧
    (∀ w ∈ (rowCellContents cfg m dn entry).map (cellWrite cfg), ∃ content,
      w = cfg.textDelimiter ++ content ++ cfg.textDelimiter ++ cfg.fieldSeparatorCharacter) ∧
    (headerCellContents cfg m ≠ [] → ∃ p,
      String.join ((headerCellContents cfg m).map (cellWrite cfg))
        = p ++ cfg.fieldSeparatorCharacter) ∧
    (rowCellContents cfg m dn entry ≠ [] → ∃ p,
      String.join ((rowCellContents cfg m dn entry).map (cellWrite cfg))
        = p ++ cfg.fieldSeparatorCharacter) := by
  have hform : ∀ (l : List String), ∀ w ∈ l.map (cellWrite cfg), ∃ content,
      w = cfg.textDelimiter ++ content ++ cfg.textDelimiter ++ cfg.fieldSeparatorCharacter := by
    intro l w hw
    rcases List.mem_map.mp hw with ⟨c, _, rfl⟩
    exact ⟨c, rfl⟩
  have hjoin : ∀ (l : List String), l ≠ [] → ∃ p,
      String.join (l.map (cellWrite cfg)) = p ++ cfg.fieldSeparatorCharacter := by
    intro l hl
    apply join_ends_with
    · intro w hw
      rcases hform l w hw with ⟨c, rfl⟩
      exact ⟨cfg.textDelimiter ++ c ++ cfg.textDelimiter, rfl⟩
    · simpa using hl
  exact ⟨hform _, hform _, hjoin _, hjoin _⟩

theorem trailing_field_separator_witness :
    headerCellContents ⟨ ",", "\"", 5 ⟩ [("dn", 1)] ≠ [] ∧
    (∃ p, String.join ((headerCellContents ⟨ ",", "\"", 5 ⟩ [("dn", 1)]).map
      (cellWrite ⟨ ",", "\"", 5 ⟩)) = p ++ ",") :=
  ⟨ by decide,
    (trailing_field_separator ⟨ ",", "\"", 5 ⟩ [("dn", 1)] "a" []).2.2.1 (by decide) ⟩

/-- C1 (amended): For every entry stream and every configuration whose
maximumColumns is at least one, every emitted line — the header and each
data row — contains the same number of delimited cells, equal to the sum
over sorted attribute names of min(cardinality, maximumColumns); with
maximumColumns zero the header loses the distinguished-name column while
each row still writes its one distinguished-name cell. -/
theorem column_count_invariant (stream : List Entry) (cfg : Config)
    (hmc : 1 ≤ cfg.maximumColumns)
    (hdn : ∀ e ∈ stream, lookupA e.attrs "dn" = none) :
    (headerCellContents cfg (parseLDIFAttributes stream)).length
      = totalColumns cfg (parseLDIFAttributes stream) ∧
    ∀ e ∈ stream,
      (rowCellContents cfg (parseLDIFAttributes stream) e.dn e.attrs).length
        = totalColumns cfg (parseLDIFAttributes stream) := by
  constructor
  · unfold headerCellContents totalColumns
    rw [List.length_flatten, List.map_map]
    congr 1
    apply List.map_congr_left
    intro name _
    simp [colsFor, numberOfTimesToPrint_eq_min]
  · intro e he
    unfold rowCellContents totalColumns
    rw [List.length_flatten, List.map_map]
    congr 1
    apply List.map_congr_left
    intro name _
    simp only [Function.comp]
    cases hA : lookupA e.attrs name with
    | some vals =>
        rw [attrCellContents_present e.dn e.attrs name vals _ hA]
        simp only [List.length_append, List.length_map, List.length_take,
          List.length_replicate, colsFor, numberOfTimesToPrint_eq_min]
        omega
    | none =>
        by_cases hname : name = "dn"
        · subst hname
          rw [attrCellContents_dn e.dn e.attrs _ hA]
          have hM : lookupA (parseLDIFAttributes stream) "dn" = some 1 :=
            discovery_fold_dn stream hdn (List.ne_nil_of_mem he) []
          rw [hM]
          simp only [List.length_singleton, Option.getD_some]
          omega
        · rw [attrCellContents_absent e.dn e.attrs name _ hA hname]
          simp [colsFor, numberOfTimesToPrint_eq_min]

theorem column_count_invariant_witness :
    (headerCellContents ⟨ ",", "\"", 2 ⟩ (parseLDIFAttributes
        [⟨ "a", [("X", ["x1", "x2", "x3"])] ⟩, ⟨ "b", [("X", ["x4"])] ⟩])).length
      = totalColumns ⟨ ",", "\"", 2 ⟩ (parseLDIFAttributes
        [⟨ "a", [("X", ["x1", "x2", "x3"])] ⟩, ⟨ "b", [("X", ["x4"])] ⟩]) ∧
    (rowCellContents ⟨ ",", "\"", 2 ⟩ (parseLDIFAttributes
        [⟨ "a", [("X", ["x1", "x2", "x3"])] ⟩, ⟨ "b", [("X", ["x4"])] ⟩])
        "a" [("X", ["x1", "x2", "x3"])]).length
      = totalColumns ⟨ ",", "\"", 2 ⟩ (parseLDIFAttributes
        [⟨ "a", [("X", ["x1", "x2", "x3"])] ⟩, ⟨ "b", [("X", ["x4"])] ⟩]) := by
  have h := column_count_invariant
    [⟨ "a", [("X", ["x1", "x2", "x3"])] ⟩, ⟨ "b", [("X", ["x4"])] ⟩]
    ⟨ ",", "\"", 2 ⟩ (by decide) (by decide)
  exact ⟨ h.1, h.2 ⟨ "a", [("X", ["x1", "x2", "x3"])] ⟩ (by decide) ⟩

/-- C1 counterexample: with maximumColumns = 0 and the one-entry stream, the
header according to the capped sum has zero cells while the data row of the
entry still holds one cell (the distinguished-name cell), so the emitted
lines do not all have the specified column count. -/
theorem column_count_cx :
    (rowCellContents ⟨ ",", "\"", 0 ⟩ (parseLDIFAttributes [⟨ "cn=a", [] ⟩]) "cn=a" []).length
      ≠ totalColumns ⟨ ",", "\"", 0 ⟩ (parseLDIFAttributes [⟨ "cn=a", [] ⟩]) := by
  decide
